import Mathlib

/-!
# Verification of the scene-density pipeline of `code-theater`

Shallow embedding of the `DensityManager` class (Scene Density Manager
module) together with the slice of the data model (`src/types.ts`) that it
consumes, and proofs of the specified properties.

Modelling conventions:
* TypeScript strings are modelled by `String` (logically a list of
  characters); `toLowerCase`, `includes`, `startsWith`, `endsWith` are
  modelled by the `js*` helpers below.
* JS `Date` values are modelled by their millisecond timestamp (`Int`),
  i.e. by what `Date.prototype.getTime()` returns; the comparator
  `(a, b) => a.date.getTime() - b.date.getTime()` is the relation `dateLe`.
* JS arrays are `List`s; `Array.prototype.sort` is stable (ES2019), which
  insertion sort realises exactly, so `List.insertionSort` with the
  corresponding non-strict relation models each `sort` call.
* Reference equality `!==` between commit objects is modelled by structural
  equality.  Commit records produced by git extraction are pairwise distinct
  objects, which corresponds to `Nodup` / distinct-field hypotheses below.
-/

namespace CodeTheater

/-- JS `String.prototype.toLowerCase`, character by character. -/
def jsToLower (s : String) : String := ⟨s.data.map Char.toLower⟩

/-- Substring test on character lists: does `needle` occur inside the
haystack (first argument)?  Models `String.prototype.includes`. -/
def charsContains : List Char → List Char → Bool
  | [], needle => needle.isEmpty
  | c :: rest, needle => needle.isPrefixOf (c :: rest) || charsContains rest needle

/-- JS `s.includes(needle)`. -/
def jsIncludes (s needle : String) : Bool := charsContains s.data needle.data

/-- JS `s.startsWith(p)`. -/
def jsStartsWith (s p : String) : Bool := p.data.isPrefixOf s.data

/-- JS `s.endsWith(p)`. -/
def jsEndsWith (s p : String) : Bool := p.data.isSuffixOf s.data

/-- `FileChange` (src/types.ts).  Only `path` is read by the density
pipeline; the per-file line counts and status are never consulted there and
are omitted from the embedding. -/
structure FileChange where
  path : String
deriving DecidableEq

/-- `Commit` (src/types.ts), restricted to the fields the density pipeline
reads (`message`, `date`, `files`, `additions`, `deletions`) plus the `sha`
identifier.  `date` is the millisecond timestamp `date.getTime()`. -/
structure Commit where
  sha : String
  message : String
  date : Int
  files : List FileChange
  additions : Nat
  deletions : Nat
deriving DecidableEq

/-- `DensityMode` = 'full' | 'montage' | 'highlights'. -/
inductive DensityMode
  | full
  | montage
  | highlights
deriving DecidableEq

/-- The `type` field of a `SceneGroup`. -/
inductive SceneType
  | single
  | montage
  | highlight
deriving DecidableEq

/-- `SceneGroup`; the optional TS fields `title?` and `isPivotal?` become
`Option` fields, `none` when the source object literal omits them. -/
structure SceneGroup where
  type : SceneType
  title : Option String := none
  commits : List Commit
  isPivotal : Option Bool := none
deriving DecidableEq

/-- `DensityResult`. -/
structure DensityResult where
  mode : DensityMode
  scenes : List SceneGroup
  totalCommits : Nat
  scenesCount : Nat
deriving DecidableEq

def FULL_THRESHOLD : Nat := 50
def MONTAGE_THRESHOLD : Nat := 200
def HIGHLIGHTS_COUNT : Nat := 25

/-- The `overrides` record of `determineDensityMode`.  The source declares
`{ full?: boolean; highlightsOnly?: boolean }` and tests truthiness, so a
missing field behaves as `false`. -/
structure Overrides where
  full : Bool := false
  highlightsOnly : Bool := false
deriving DecidableEq

/-- `DensityManager.determineDensityMode`. -/
def determineDensityMode (commitCount : Nat) (overrides : Overrides) :
    DensityMode :=
  if overrides.full then .full
  else if overrides.highlightsOnly then .highlights
  else if commitCount ≤ FULL_THRESHOLD then .full
  else if commitCount ≤ MONTAGE_THRESHOLD then .montage
  else .highlights

/-- `DensityManager.calculatePivotalScore`: the sequence of `score += k`
statements becomes a chain of `let score := if _ then score + k else score`
bindings. -/
def calculatePivotalScore (commit : Commit) : Nat :=
  let score := 0
  let message := jsToLower commit.message
  let score := if commit.additions + commit.deletions > 200 then score + 2 else score
  let score := if commit.additions + commit.deletions > 500 then score + 2 else score
  let score := if commit.files.length > 10 then score + 2 else score
  let score := if commit.files.length > 20 then score + 2 else score
  let score := if jsIncludes message "breaking" then score + 3 else score
  let score := if jsIncludes message "major" then score + 2 else score
  let score := if jsIncludes message "release" then score + 2 else score
  let score := if jsIncludes message "fix" && jsIncludes message "critical" then score + 2 else score
  let score := if jsIncludes message "revert" then score + 2 else score
  let score := if jsIncludes message "merge" then score + 1 else score
  let score := if jsIncludes message "hotfix" then score + 2 else score
  let score := if jsIncludes message "security" then score + 2 else score
  let score := if jsStartsWith message "feat" then score + 1 else score
  score

/-- `DensityManager.isPivotal`. -/
def isPivotal (commit : Commit) : Bool :=
  decide (calculatePivotalScore commit ≥ 5)

/-- `DensityManager.containsPivotalCommit`. -/
def containsPivotalCommit (commits : List Commit) : Bool :=
  commits.any isPivotal

/-- `DensityManager.findPivotalCommit` (`Array.prototype.find`, first match
or `undefined`). -/
def findPivotalCommit (commits : List Commit) : Option Commit :=
  commits.find? isPivotal

/-- The comparator `(a, b) => b.score - a.score` of `findAllPivotalCommits`:
sort descending by score. -/
def scoreDesc (a b : Commit × Nat) : Prop := b.2 ≤ a.2

instance : DecidableRel scoreDesc := fun a b => Nat.decLe b.2 a.2

instance : IsTotal (Commit × Nat) scoreDesc :=
  ⟨fun a b => Nat.le_total b.2 a.2⟩

instance : IsTrans (Commit × Nat) scoreDesc :=
  ⟨fun _ _ _ h1 h2 => le_trans h2 h1⟩

/-- The comparator `(a, b) => a.date.getTime() - b.date.getTime()`:
sort ascending by timestamp. -/
def dateLe (a b : Commit) : Prop := a.date ≤ b.date

instance : DecidableRel dateLe := fun a b => Int.decLe a.date b.date

instance : IsTotal Commit dateLe := ⟨fun a b => Int.le_total a.date b.date⟩

instance : IsTrans Commit dateLe := ⟨fun _ _ _ h1 h2 => le_trans h1 h2⟩

/-- `DensityManager.findAllPivotalCommits` (the spec's `rankPivotal`):
score every commit, sort by score descending (stable), take the top
`limit`, then re-sort the selection chronologically (stable). -/
def findAllPivotalCommits (commits : List Commit) (limit : Nat) :
    List Commit :=
  let scored := commits.map fun commit => (commit, calculatePivotalScore commit)
  let sorted := List.insertionSort scoreDesc scored
  let top := (sorted.take limit).map Prod.fst
  List.insertionSort dateLe top

/-- `DensityManager.processFull`. -/
def processFull (commits : List Commit) : DensityResult :=
  { mode := .full
    scenes := commits.map fun commit => { type := .single, commits := [commit] }
    totalCommits := commits.length
    scenesCount := commits.length }

/-- The intermediate `{ title, commits }` grouping record of
`groupByTheme` / `mergeSmallGroups`. -/
structure ThemeGroup where
  title : String
  commits : List Commit
deriving DecidableEq

/-- The ordered keyword table of `inferTheme`. -/
def themePatterns : List (List String × String) :=
  [ (["fix", "bug", "issue", "patch"], "Bug Fixes"),
    (["feat", "add", "implement", "new"], "New Features"),
    (["refactor", "clean", "reorganize"], "Refactoring"),
    (["test", "spec", "coverage"], "Testing"),
    (["doc", "readme", "comment"], "Documentation"),
    (["style", "format", "lint"], "Code Style"),
    (["perf", "optimize", "speed"], "Performance"),
    (["security", "auth", "permission"], "Security"),
    (["deploy", "release", "version"], "Deployment"),
    (["config", "setup", "install"], "Configuration") ]

/-- `DensityManager.inferTheme`: the for-loop with early `return` over the
pattern rows is `List.find?`; the file-path fallback follows. -/
def inferTheme (commits : List Commit) : String :=
  let messages := commits.map fun c => jsToLower c.message
  match themePatterns.find?
      (fun pt => messages.any fun m => pt.1.any fun k => jsIncludes m k) with
  | some pt => pt.2
  | none =>
    let allFiles := commits.flatMap fun c => c.files.map (·.path)
    if allFiles.any (fun f => jsIncludes f "test" || jsIncludes f "spec") then
      "Testing"
    else if allFiles.any (fun f => jsEndsWith f ".md" || jsIncludes f "doc") then
      "Documentation"
    else
      "Development"

/-- Body of the run-building loop of `groupByTheme` once `currentGroup` is
non-null: push the finished run when the per-commit theme changes, else
append to the current run.  (The first loop of the source builds a
`Map<string, Commit[]>` that is never read afterwards; being dead code it
is omitted.) -/
def runsGo (current : ThemeGroup) : List Commit → List ThemeGroup
  | [] => [current]
  | commit :: rest =>
    let theme := inferTheme [commit]
    if current.title ≠ theme then current :: runsGo ⟨theme, [commit]⟩ rest
    else runsGo ⟨current.title, current.commits ++ [commit]⟩ rest

/-- The consecutive-run grouping pass of `groupByTheme` (before merging):
`currentGroup` starts `null` and is seeded by the first commit. -/
def groupRuns : List Commit → List ThemeGroup
  | [] => []
  | commit :: rest => runsGo ⟨inferTheme [commit], [commit]⟩ rest

/-- Body of the loop of `mergeSmallGroups` once `pending` is non-null. -/
def mergeGo (pending : ThemeGroup) : List ThemeGroup → List ThemeGroup
  | [] => [pending]
  | group :: rest =>
    if pending.commits.length < 3 ∧ group.commits.length < 3 then
      mergeGo ⟨pending.title ++ " & " ++ group.title,
               pending.commits ++ group.commits⟩ rest
    else pending :: mergeGo group rest

/-- `DensityManager.mergeSmallGroups`. -/
def mergeSmallGroups : List ThemeGroup → List ThemeGroup
  | [] => []
  | group :: rest => mergeGo group rest

/-- `DensityManager.groupByTheme`: consecutive runs, then the merge pass. -/
def groupByTheme (commits : List Commit) : List ThemeGroup :=
  mergeSmallGroups (groupRuns commits)

/-- Loop body of `processMontage` for one themed group. -/
def emitGroup (group : ThemeGroup) : List SceneGroup :=
  if group.commits.length = 1 then
    [{ type := .single, commits := group.commits }]
  else if containsPivotalCommit group.commits then
    let pivotal := findPivotalCommit group.commits
    let others := group.commits.filter fun c => decide (some c ≠ pivotal)
    (if others.length > 0 then
      [{ type := .montage, title := some group.title, commits := others }]
    else [])
    ++ (match pivotal with
        | some p => [{ type := .highlight, commits := [p], isPivotal := some true }]
        | none => [])
  else
    [{ type := .montage, title := some group.title, commits := group.commits }]

/-- `DensityManager.processMontage`. -/
def processMontage (commits : List Commit) : DensityResult :=
  let groups := groupByTheme commits
  let scenes := groups.flatMap emitGroup
  { mode := .montage
    scenes := scenes
    totalCommits := commits.length
    scenesCount := scenes.length }

/-- The scene-accumulation loop of `processHighlights`, with the trailing
"remaining commits" push.  `commits.slice(a, b)` is `(commits.drop a).take
(b - a)` and `commits.slice(a)` is `commits.drop a`. -/
def buildHighlightScenes (commits : List Commit) :
    List Commit → Nat → List SceneGroup
  | [], lastIndex =>
    if lastIndex < commits.length then
      let remaining := commits.drop lastIndex
      if remaining.length > 0 then
        [{ type := .montage, title := some (inferTheme remaining),
           commits := remaining }]
      else []
    else []
  | commit :: rest, lastIndex =>
    let currentIndex := commits.indexOf commit
    (if currentIndex > lastIndex then
      let skipped := (commits.drop lastIndex).take (currentIndex - lastIndex)
      if skipped.length > 0 then
        [{ type := .montage, title := some (inferTheme skipped),
           commits := skipped }]
      else []
    else [])
    ++ [{ type := .highlight, commits := [commit], isPivotal := some true }]
    ++ buildHighlightScenes commits rest (currentIndex + 1)

/-- `DensityManager.processHighlights`. -/
def processHighlights (commits : List Commit) : DensityResult :=
  let pivotal := findAllPivotalCommits commits HIGHLIGHTS_COUNT
  let scenes := buildHighlightScenes commits pivotal 0
  { mode := .highlights
    scenes := scenes
    totalCommits := commits.length
    scenesCount := scenes.length }

/-- `DensityManager.processCommits` (the spec's `buildSceneGroups`): pure
dispatch on the mode (the `async` wrapper adds nothing). -/
def processCommits (commits : List Commit) (mode : DensityMode) :
    DensityResult :=
  match mode with
  | .full => processFull commits
  | .montage => processMontage commits
  | .highlights => processHighlights commits

/-! ## Concrete commits used in examples, witnesses and counterexamples -/

/-- "fix: a" commit of the §8 montage-merge example. -/
def cFixA : Commit := ⟨"a1", "fix: a", 0, [], 0, 0⟩

/-- "fix: b" commit of the §8 montage-merge example. -/
def cFixB : Commit := ⟨"a2", "fix: b", 1, [], 0, 0⟩

/-- "feat: c" commit of the §8 montage-merge example. -/
def cFeatC : Commit := ⟨"a3", "feat: c", 2, [], 0, 0⟩

/-- "feat: d" commit of the §8 montage-merge example. -/
def cFeatD : Commit := ⟨"a4", "feat: d", 3, [], 0, 0⟩

/-- "feat: e" commit of the §8 montage-merge example. -/
def cFeatE : Commit := ⟨"a5", "feat: e", 4, [], 0, 0⟩

/-- The §8 scoring example: every applicable scoring row fires. -/
def cBigRelease : Commit :=
  ⟨"p1", "breaking: major release hotfix for critical fix", 0,
   List.replicate 25 ⟨"f"⟩, 600, 0⟩

/-- Keyword-free commits forming a single "Development" theme run; only the
third one is pivotal ("breaking major" scores 3 + 2 = 5). -/
def cRun1 : Commit := ⟨"r1", "qqq one", 0, [], 0, 0⟩

def cRun2 : Commit := ⟨"r2", "qqq two", 1, [], 0, 0⟩

def cRun3 : Commit := ⟨"r3", "breaking major", 2, [], 0, 0⟩

def cRun4 : Commit := ⟨"r4", "qqq four", 3, [], 0, 0⟩

def cRun5 : Commit := ⟨"r5", "qqq five", 4, [], 0, 0⟩

/-- Zero-score commit sharing its timestamp with `cTie1`. -/
def cTie0 : Commit := ⟨"t0", "docs", 0, [], 0, 0⟩

/-- Score-5 commit sharing its timestamp with `cTie0`. -/
def cTie1 : Commit := ⟨"t1", "breaking major", 0, [], 0, 0⟩

/-- A single zero-score commit. -/
def cDull : Commit := ⟨"d0", "docs", 0, [], 0, 0⟩

/-- A commit whose message contains both "fix" and "test". -/
def cFixTest : Commit := ⟨"ft", "fix: test flake", 0, [], 0, 0⟩

/-- A keyword-free commit touching only `README.md`. -/
def cReadme : Commit := ⟨"md", "zzz", 0, [⟨"README.md"⟩], 0, 0⟩

/-! ## Helper lemmas about `findAllPivotalCommits` -/

theorem findAll_length_le (commits : List Commit) (k : Nat) :
    (findAllPivotalCommits commits k).length ≤ k := by
  simp only [findAllPivotalCommits]
  rw [List.length_insertionSort, List.length_map, List.length_take]
  exact min_le_left _ _

theorem findAll_sorted (commits : List Commit) (k : Nat) :
    List.Sorted dateLe (findAllPivotalCommits commits k) :=
  List.sorted_insertionSort dateLe _

theorem findAll_subperm (commits : List Commit) (k : Nat) :
    List.Subperm (findAllPivotalCommits commits k) commits := by
  simp only [findAllPivotalCommits]
  have h4 : ((commits.map fun commit => (commit, calculatePivotalScore commit)).map
      Prod.fst) = commits := by
    induction commits with
    | nil => rfl
    | cons c rest ih => simp only [List.map_cons, ih]
  have h1 : List.Subperm
      (List.insertionSort dateLe
        (((List.insertionSort scoreDesc
          (commits.map fun commit => (commit, calculatePivotalScore commit))).take
            k).map Prod.fst))
      (((List.insertionSort scoreDesc
          (commits.map fun commit => (commit, calculatePivotalScore commit))).take
            k).map Prod.fst) :=
    (List.perm_insertionSort dateLe _).subperm
  have h2 : List.Sublist
      (((List.insertionSort scoreDesc
          (commits.map fun commit => (commit, calculatePivotalScore commit))).take
            k).map Prod.fst)
      ((List.insertionSort scoreDesc
          (commits.map fun commit => (commit, calculatePivotalScore commit))).map
            Prod.fst) :=
    List.Sublist.map Prod.fst (List.take_sublist _ _)
  have h3 : ((List.insertionSort scoreDesc
      (commits.map fun commit => (commit, calculatePivotalScore commit))).map
        Prod.fst).Perm commits := by
    conv_rhs => rw [← h4]
    exact List.Perm.map Prod.fst (List.perm_insertionSort scoreDesc _)
  exact h1.trans (h2.subperm.trans h3.subperm)

theorem findAll_mem {commits : List Commit} {k : Nat} {c : Commit}
    (h : c ∈ findAllPivotalCommits commits k) : c ∈ commits :=
  (findAll_subperm commits k).subset h

theorem findAll_nodup {commits : List Commit} (k : Nat)
    (h : commits.Nodup) : (findAllPivotalCommits commits k).Nodup := by
  obtain ⟨l, hp, hs⟩ := findAll_subperm commits k
  exact hp.nodup_iff.mp (hs.nodup h)

/-! ## Easy structural lemmas -/

theorem flatten_map_singleton (l : List Commit) :
    (l.map fun c => [c]).flatten = l := by
  induction l with
  | nil => rfl
  | cons c rest ih => simp [ih]

/-- Accumulation step of the score table: `if c then s + k else s` adds an
independent indicator. -/
theorem ite_acc (c : Prop) [Decidable c] (s k : Nat) :
    (if c then s + k else s) = s + (if c then k else 0) := by
  split <;> simp

/-! ## Claim theorems -/

/-- **C4.** `calculatePivotalScore` is the additive point table with each
row checked independently; a commit is pivotal iff its score is ≥ 5; and
the "breaking: major release hotfix for critical fix" commit with 600
changed lines across 25 files scores at least 19.  (Determinism is
immediate: the embedding is a pure function of the commit record.) -/
theorem claim_C4 :
    (∀ c : Commit, calculatePivotalScore c =
      (if c.additions + c.deletions > 200 then 2 else 0) +
      (if c.additions + c.deletions > 500 then 2 else 0) +
      (if c.files.length > 10 then 2 else 0) +
      (if c.files.length > 20 then 2 else 0) +
      (if jsIncludes (jsToLower c.message) "breaking" then 3 else 0) +
      (if jsIncludes (jsToLower c.message) "major" then 2 else 0) +
      (if jsIncludes (jsToLower c.message) "release" then 2 else 0) +
      (if jsIncludes (jsToLower c.message) "fix" &&
          jsIncludes (jsToLower c.message) "critical" then 2 else 0) +
      (if jsIncludes (jsToLower c.message) "revert" then 2 else 0) +
      (if jsIncludes (jsToLower c.message) "merge" then 1 else 0) +
      (if jsIncludes (jsToLower c.message) "hotfix" then 2 else 0) +
      (if jsIncludes (jsToLower c.message) "security" then 2 else 0) +
      (if jsStartsWith (jsToLower c.message) "feat" then 1 else 0)) ∧
    (∀ c : Commit, isPivotal c = true ↔ 5 ≤ calculatePivotalScore c) ∧
    19 ≤ calculatePivotalScore cBigRelease := by
  refine ⟨fun c => ?_, fun c => ?_, by decide⟩
  · simp only [calculatePivotalScore]
    conv_lhs =>
      rw [ite_acc, ite_acc, ite_acc, ite_acc, ite_acc, ite_acc, ite_acc,
        ite_acc, ite_acc, ite_acc, ite_acc, ite_acc, ite_acc]
    simp only [Nat.zero_add]
  · simp [isPivotal, ge_iff_le, decide_eq_true_iff]

/-- **C7.** `determineDensityMode` evaluates its rules in order: a `full`
override wins, then a `highlightsOnly` override, then the 50 / 200
thresholds; including the four boundary instances. -/
theorem claim_C7 :
    (∀ (n : Nat) (b : Bool), determineDensityMode n ⟨true, b⟩ = .full) ∧
    (∀ n : Nat, determineDensityMode n ⟨false, true⟩ = .highlights) ∧
    determineDensityMode 50 ⟨false, false⟩ = .full ∧
    determineDensityMode 51 ⟨false, false⟩ = .montage ∧
    determineDensityMode 200 ⟨false, false⟩ = .montage ∧
    determineDensityMode 201 ⟨false, false⟩ = .highlights ∧
    (∀ n : Nat, n ≤ 50 → determineDensityMode n ⟨false, false⟩ = .full) ∧
    (∀ n : Nat, 50 < n → n ≤ 200 →
      determineDensityMode n ⟨false, false⟩ = .montage) ∧
    (∀ n : Nat, 200 < n → determineDensityMode n ⟨false, false⟩ = .highlights) := by
  have hbase : ∀ n : Nat, determineDensityMode n ⟨false, false⟩ =
      (if n ≤ FULL_THRESHOLD then DensityMode.full
       else if n ≤ MONTAGE_THRESHOLD then .montage else .highlights) :=
    fun n => rfl
  refine ⟨fun n b => rfl, fun n => rfl, by decide, by decide, by decide, by decide,
    fun n h => ?_, fun n h1 h2 => ?_, fun n h => ?_⟩ <;>
    simp only [hbase, FULL_THRESHOLD, MONTAGE_THRESHOLD] <;>
    split_ifs <;> first | rfl | omega

/-- Witness for C7: the three threshold rules applied at interior points. -/
theorem claim_C7_witness :
    determineDensityMode 7 ⟨false, false⟩ = .full ∧
    determineDensityMode 60 ⟨false, false⟩ = .montage ∧
    determineDensityMode 300 ⟨false, false⟩ = .highlights :=
  ⟨claim_C7.2.2.2.2.2.2.1 7 (by decide),
   claim_C7.2.2.2.2.2.2.2.1 60 (by decide) (by decide),
   claim_C7.2.2.2.2.2.2.2.2 300 (by decide)⟩

/-- **C9.** Full mode is the identity partition: one `single` group per
commit, wrapping exactly that commit, in the original order. -/
theorem claim_C9 :
    ∀ commits : List Commit,
      (processCommits commits .full).scenes.length = commits.length ∧
      (processCommits commits .full).scenes.map SceneGroup.type =
        List.replicate commits.length .single ∧
      (processCommits commits .full).scenes.map SceneGroup.commits =
        (commits.map fun c => [c]) ∧
      ((processCommits commits .full).scenes.map SceneGroup.commits).flatten =
        commits := by
  intro commits
  refine ⟨by simp [processCommits, processFull], ?_, ?_, ?_⟩
  · simp only [processCommits, processFull, List.map_map]
    exact List.map_const commits SceneType.single
  · simp [processCommits, processFull, List.map_map]
  · simp only [processCommits, processFull, List.map_map]
    exact flatten_map_singleton commits

/-- **C10.** For every input and mode, the `DensityResult` satisfies
`totalCommits` = input length, `scenesCount` = number of scenes, and
`mode` = the requested mode; the empty input yields the empty result in
every mode, without error. -/
theorem claim_C10 :
    (∀ (commits : List Commit) (mode : DensityMode),
      (processCommits commits mode).mode = mode ∧
      (processCommits commits mode).totalCommits = commits.length ∧
      (processCommits commits mode).scenesCount =
        (processCommits commits mode).scenes.length) ∧
    (∀ mode : DensityMode, processCommits [] mode = ⟨mode, [], 0, 0⟩) := by
  constructor
  · intro commits mode
    cases mode <;>
      simp [processCommits, processFull, processMontage, processHighlights]
  · intro mode
    cases mode <;> rfl

/-- **C2.** `findAllPivotalCommits` (the spec's `rankPivotal`) returns at
most `k` commits, sorted ascending by timestamp, drawn without duplication
from the input (a sub-permutation); by construction it scores every commit,
stably sorts by score descending, takes the top `k` and re-sorts that
selection chronologically. -/
theorem claim_C2 :
    ∀ (commits : List Commit) (k : Nat),
      (findAllPivotalCommits commits k).length ≤ k ∧
      List.Sorted dateLe (findAllPivotalCommits commits k) ∧
      List.Subperm (findAllPivotalCommits commits k) commits :=
  fun commits k =>
    ⟨findAll_length_le commits k, findAll_sorted commits k,
     findAll_subperm commits k⟩

/-! ## Structural lemmas for the montage pipeline -/

theorem runsGo_flatten (cur : ThemeGroup) (l : List Commit) :
    ((runsGo cur l).map ThemeGroup.commits).flatten = cur.commits ++ l := by
  induction l generalizing cur with
  | nil => simp [runsGo]
  | cons c rest ih =>
    simp only [runsGo]
    split
    · simp [ih]
    · simp [ih]

theorem groupRuns_flatten (commits : List Commit) :
    ((groupRuns commits).map ThemeGroup.commits).flatten = commits := by
  cases commits with
  | nil => rfl
  | cons c rest => simp [groupRuns, runsGo_flatten]

theorem mergeGo_flatten (pending : ThemeGroup) (l : List ThemeGroup) :
    ((mergeGo pending l).map ThemeGroup.commits).flatten =
      pending.commits ++ (l.map ThemeGroup.commits).flatten := by
  induction l generalizing pending with
  | nil => simp [mergeGo]
  | cons g rest ih =>
    simp only [mergeGo]
    split
    · simp [ih]
    · simp [ih]

theorem mergeSmallGroups_flatten (l : List ThemeGroup) :
    ((mergeSmallGroups l).map ThemeGroup.commits).flatten =
      (l.map ThemeGroup.commits).flatten := by
  cases l with
  | nil => rfl
  | cons g rest => simp [mergeSmallGroups, mergeGo_flatten]

theorem groupByTheme_flatten (commits : List Commit) :
    ((groupByTheme commits).map ThemeGroup.commits).flatten = commits := by
  rw [groupByTheme, mergeSmallGroups_flatten, groupRuns_flatten]

/-- `findPivotalCommit` succeeds whenever `containsPivotalCommit` holds. -/
theorem findPivotal_of_contains {l : List Commit}
    (h : containsPivotalCommit l = true) :
    ∃ p, findPivotalCommit l = some p := by
  rcases List.any_eq_true.mp h with ⟨x, hx, hpx⟩
  cases hfind : findPivotalCommit l with
  | none => exact absurd (List.find?_eq_none.mp hfind x hx) (by simp [hpx])
  | some q => exact ⟨q, rfl⟩

/-- On a duplicate-free group, the `c !== pivotal` filter removes exactly
the extracted pivotal commit. -/
theorem filter_ne_eq_erase {l : List Commit} (p : Commit) (h : l.Nodup) :
    (l.filter fun c => decide (some c ≠ some p)) = l.erase p := by
  rw [List.Nodup.erase_eq_filter h]
  apply List.filter_congr
  intro c _
  by_cases hcp : c = p <;> simp [hcp]

theorem emitGroup_flatten_perm (g : ThemeGroup) (h : g.commits.Nodup) :
    (((emitGroup g).map SceneGroup.commits).flatten).Perm g.commits := by
  by_cases h1 : g.commits.length = 1
  · simp only [emitGroup, if_pos h1, List.map_cons, List.map_nil,
      List.flatten_cons, List.flatten_nil, List.append_nil]
    exact List.Perm.refl _
  · by_cases h2 : containsPivotalCommit g.commits = true
    · obtain ⟨p, hp⟩ := findPivotal_of_contains h2
      have hmem : p ∈ g.commits := List.mem_of_find?_eq_some hp
      simp only [emitGroup, if_neg h1, if_pos h2, hp,
        filter_ne_eq_erase p h]
      by_cases h3 : (g.commits.erase p).length > 0
      · rw [if_pos h3]
        simp only [List.map_append, List.flatten_append, List.map_cons,
          List.map_nil, List.flatten_cons, List.flatten_nil, List.append_nil]
        exact (List.perm_append_singleton p _).trans
          (List.perm_cons_erase hmem).symm
      · rw [if_neg h3]
        have hnil : g.commits.erase p = [] := by
          cases hh : g.commits.erase p with
          | nil => rfl
          | cons a b => rw [hh] at h3; simp at h3
        simp only [List.nil_append, List.map_cons, List.map_nil,
          List.flatten_cons, List.flatten_nil, List.append_nil]
        have hperm := List.perm_cons_erase hmem
        rw [hnil] at hperm
        exact hperm.symm
    · simp only [emitGroup, if_neg h1, if_neg h2, List.map_cons, List.map_nil,
        List.flatten_cons, List.flatten_nil, List.append_nil]
      exact List.Perm.refl _

theorem flatMap_emitGroup_perm (gs : List ThemeGroup)
    (h : ((gs.map ThemeGroup.commits).flatten).Nodup) :
    (((gs.flatMap emitGroup).map SceneGroup.commits).flatten).Perm
      ((gs.map ThemeGroup.commits).flatten) := by
  induction gs with
  | nil => simp
  | cons g rest ih =>
    simp only [List.flatMap_cons, List.map_cons, List.flatten_cons,
      List.map_append, List.flatten_append] at h ⊢
    exact (emitGroup_flatten_perm g h.of_append_left).append
      (ih h.of_append_right)

theorem processMontage_coverage (commits : List Commit) (h : commits.Nodup) :
    (((processMontage commits).scenes.map SceneGroup.commits).flatten).Perm
      commits := by
  simp only [processMontage]
  have hflat := groupByTheme_flatten commits
  have h2 := flatMap_emitGroup_perm (groupByTheme commits)
    (by rw [hflat]; exact h)
  rw [hflat] at h2
  exact h2

/-- **C5.** In montage mode, commits are grouped into maximal runs of equal
per-commit theme and adjacent sub-3 groups merge greedily left-to-right
(with `"{first} & {second}"` titles, a fresh merge absorbing further small
groups); the literal 5-commit fix/fix/feat/feat/feat input yields exactly
the two montage groups, with no merge. -/
theorem claim_C5 :
    groupByTheme [cFixA, cFixB, cFeatC, cFeatD, cFeatE] =
      [⟨"Bug Fixes", [cFixA, cFixB]⟩,
       ⟨"New Features", [cFeatC, cFeatD, cFeatE]⟩] ∧
    (processCommits [cFixA, cFixB, cFeatC, cFeatD, cFeatE] .montage).scenes =
      [⟨.montage, some "Bug Fixes", [cFixA, cFixB], none⟩,
       ⟨.montage, some "New Features", [cFeatC, cFeatD, cFeatE], none⟩] ∧
    (∀ (g₁ g₂ : ThemeGroup) (rest : List ThemeGroup),
      g₁.commits.length < 3 → g₂.commits.length < 3 →
      mergeSmallGroups (g₁ :: g₂ :: rest) =
        mergeSmallGroups
          (⟨g₁.title ++ " & " ++ g₂.title, g₁.commits ++ g₂.commits⟩ :: rest)) ∧
    (∀ (g₁ g₂ : ThemeGroup) (rest : List ThemeGroup),
      ¬(g₁.commits.length < 3 ∧ g₂.commits.length < 3) →
      mergeSmallGroups (g₁ :: g₂ :: rest) = g₁ :: mergeSmallGroups (g₂ :: rest)) := by
  refine ⟨by decide, by decide, fun g₁ g₂ rest h1 h2 => ?_, fun g₁ g₂ rest h => ?_⟩
  · simp [mergeSmallGroups, mergeGo, h1, h2]
  · simp [mergeSmallGroups, mergeGo, h]

/-- Witness for C5: both branches of the merge rule at concrete groups. -/
theorem claim_C5_witness :
    mergeSmallGroups [⟨"A", [cFixA]⟩, ⟨"B", [cFixB]⟩] =
      [⟨"A & B", [cFixA, cFixB]⟩] ∧
    mergeSmallGroups [⟨"C", [cFeatC, cFeatD, cFeatE]⟩, ⟨"A", [cFixA]⟩] =
      [⟨"C", [cFeatC, cFeatD, cFeatE]⟩, ⟨"A", [cFixA]⟩] := by
  constructor
  · exact (claim_C5.2.2.1 ⟨"A", [cFixA]⟩ ⟨"B", [cFixB]⟩ [] (by decide)
      (by decide)).trans (by decide)
  · exact (claim_C5.2.2.2 ⟨"C", [cFeatC, cFeatD, cFeatE]⟩ ⟨"A", [cFixA]⟩ []
      (by decide)).trans (by decide)

/-- **C8.** `inferTheme` checks the keyword table in its fixed order (so a
message with both "fix" and "test" resolves to "Bug Fixes"), and only when
no message matches any keyword does it fall back to the file-path rules
(test/spec → Testing, .md/doc → Documentation, else Development). -/
theorem claim_C8 :
    (∀ commits : List Commit,
      ((commits.map fun c => jsToLower c.message).any fun m =>
        (["fix", "bug", "issue", "patch"] : List String).any fun k =>
          jsIncludes m k) = true →
      inferTheme commits = "Bug Fixes") ∧
    (∀ commits : List Commit,
      (∀ pt ∈ themePatterns,
        ((commits.map fun c => jsToLower c.message).any fun m =>
          pt.1.any fun k => jsIncludes m k) = false) →
      inferTheme commits =
        (if (commits.flatMap fun c => c.files.map (·.path)).any
            (fun f => jsIncludes f "test" || jsIncludes f "spec") then
          "Testing"
         else if (commits.flatMap fun c => c.files.map (·.path)).any
            (fun f => jsEndsWith f ".md" || jsIncludes f "doc") then
          "Documentation"
         else "Development")) ∧
    inferTheme [cFixTest] = "Bug Fixes" := by
  refine ⟨fun commits h => ?_, fun commits h => ?_, by decide⟩
  · have hfind : List.find?
        (fun pt => (commits.map fun c => jsToLower c.message).any fun m =>
          pt.1.any fun k => jsIncludes m k) themePatterns =
        some (["fix", "bug", "issue", "patch"], "Bug Fixes") := by
      simp only [themePatterns]
      exact List.find?_cons_of_pos _ h
    simp only [inferTheme, hfind]
  · have hfind : List.find?
        (fun pt => (commits.map fun c => jsToLower c.message).any fun m =>
          pt.1.any fun k => jsIncludes m k) themePatterns = none :=
      List.find?_eq_none.mpr fun pt hpt => by simp [h pt hpt]
    simp only [inferTheme, hfind]

/-- Witness for C8: priority rule and fallback rule at concrete commits. -/
theorem claim_C8_witness :
    inferTheme [cFixA] = "Bug Fixes" ∧ inferTheme [cReadme] = "Documentation" := by
  constructor
  · exact claim_C8.1 [cFixA] (by decide)
  · exact (claim_C8.2.1 [cReadme] (by decide)).trans (by decide)

/-- **C3.** In montage mode, a themed run of length ≥ 2 with no pivotal
commit is emitted as one montage; with a pivotal commit, the first pivotal
commit is removed (the remaining commits keep their order, the montage
being omitted only when empty) and a `highlight` group with just that
commit and `isPivotal = true` follows.  A 5-commit run whose only pivotal
commit is the 3rd yields the montage of the other 4 then the highlight. -/
theorem claim_C3 :
    (∀ g : ThemeGroup, 2 ≤ g.commits.length →
      (containsPivotalCommit g.commits = false →
        emitGroup g = [⟨.montage, some g.title, g.commits, none⟩]) ∧
      (∀ p : Commit, findPivotalCommit g.commits = some p → g.commits.Nodup →
        emitGroup g = [⟨.montage, some g.title, g.commits.erase p, none⟩,
                       ⟨.highlight, none, [p], some true⟩])) ∧
    (processCommits [cRun1, cRun2, cRun3, cRun4, cRun5] .montage).scenes =
      [⟨.montage, some "Development", [cRun1, cRun2, cRun4, cRun5], none⟩,
       ⟨.highlight, none, [cRun3], some true⟩] := by
  refine ⟨fun g hlen => ⟨fun hnone => ?_, fun p hfind hnodup => ?_⟩, by decide⟩
  · have h1 : ¬ g.commits.length = 1 := by omega
    simp [emitGroup, h1, hnone]
  · have h1 : ¬ g.commits.length = 1 := by omega
    have hmem : p ∈ g.commits := List.mem_of_find?_eq_some hfind
    have hcontains : containsPivotalCommit g.commits = true :=
      List.any_eq_true.mpr ⟨p, hmem, List.find?_some hfind⟩
    have hlen2 : (g.commits.erase p).length > 0 := by
      rw [List.length_erase_of_mem hmem]; omega
    simp only [emitGroup, if_neg h1, if_pos hcontains, hfind,
      filter_ne_eq_erase p hnodup, if_pos hlen2]
    rfl

/-- Witness for C3: both branches of the per-run rule at concrete runs. -/
theorem claim_C3_witness :
    emitGroup ⟨"X", [cRun1, cRun2]⟩ =
      [⟨.montage, some "X", [cRun1, cRun2], none⟩] ∧
    emitGroup ⟨"Development", [cRun1, cRun2, cRun3, cRun4, cRun5]⟩ =
      [⟨.montage, some "Development", [cRun1, cRun2, cRun4, cRun5], none⟩,
       ⟨.highlight, none, [cRun3], some true⟩] := by
  constructor
  · exact ((claim_C3.1 ⟨"X", [cRun1, cRun2]⟩ (by decide)).1 (by decide))
  · exact (((claim_C3.1 ⟨"Development", [cRun1, cRun2, cRun3, cRun4, cRun5]⟩
      (by decide)).2 cRun3 (by decide) (by decide))).trans (by decide)

/-! ## Structural lemmas for the highlights pipeline -/

theorem dateLt_ne {a b : Commit} (h : a.date < b.date) : a ≠ b :=
  fun heq => absurd (heq ▸ h) (lt_irrefl _)

theorem nodup_of_strict_dates {commits : List Commit}
    (h : List.Pairwise (fun a b => a.date < b.date) commits) : commits.Nodup :=
  h.imp fun hab => dateLt_ne hab

/-- In a list with strictly increasing timestamps, position order follows
timestamp order. -/
theorem indexOf_lt_of_date {commits : List Commit} {a b : Commit}
    (hsort : List.Pairwise (fun a b => a.date < b.date) commits)
    (ha : a ∈ commits) (hb : b ∈ commits) (hle : a.date ≤ b.date)
    (hne : a ≠ b) :
    List.indexOf a commits < List.indexOf b commits := by
  have hia := List.indexOf_lt_length.mpr ha
  have hib := List.indexOf_lt_length.mpr hb
  have hga : commits.get ⟨List.indexOf a commits, hia⟩ = a :=
    List.indexOf_get hia
  have hgb : commits.get ⟨List.indexOf b commits, hib⟩ = b :=
    List.indexOf_get hib
  rcases Nat.lt_trichotomy (List.indexOf a commits) (List.indexOf b commits)
    with h | h | h
  · exact h
  · exfalso
    apply hne
    have hfin : (⟨List.indexOf a commits, hia⟩ : Fin commits.length) =
        ⟨List.indexOf b commits, hib⟩ := Fin.ext h
    rw [← hga, ← hgb, hfin]
  · exfalso
    have hlt := (List.pairwise_iff_get.mp hsort)
      ⟨List.indexOf b commits, hib⟩ ⟨List.indexOf a commits, hia⟩ h
    rw [hga, hgb] at hlt
    exact absurd hle (not_le.mpr hlt)

/-- The chronologically re-sorted top-k checkpoints sit at strictly
increasing positions when the input has strictly increasing timestamps. -/
theorem pivotal_index_mono {commits : List Commit}
    (hsort : List.Pairwise (fun a b => a.date < b.date) commits) (k : Nat) :
    List.Pairwise
      (fun a b => List.indexOf a commits < List.indexOf b commits)
      (findAllPivotalCommits commits k) := by
  have hnd : (findAllPivotalCommits commits k).Nodup :=
    findAll_nodup k (nodup_of_strict_dates hsort)
  have hsd : List.Pairwise dateLe (findAllPivotalCommits commits k) :=
    findAll_sorted commits k
  have hcomb := List.pairwise_and_iff.mpr ⟨hsd, hnd⟩
  exact List.Pairwise.imp_of_mem
    (fun ha hb hab =>
      indexOf_lt_of_date hsort (findAll_mem ha) (findAll_mem hb) hab.1 hab.2)
    hcomb

/-- Splitting `commits.drop lastIndex` at an interior position `i`. -/
theorem drop_split_at (commits : List Commit) (lastIndex i : Nat)
    (hle : lastIndex ≤ i) (hi : i < commits.length) :
    (commits.drop lastIndex).take (i - lastIndex) ++
      commits[i] :: commits.drop (i + 1) = commits.drop lastIndex := by
  conv_rhs => rw [← List.take_append_drop (i - lastIndex) (commits.drop lastIndex)]
  congr 1
  rw [List.drop_drop, Nat.add_sub_cancel' hle]
  exact (List.drop_eq_getElem_cons hi).symm

/-- Flattening the highlight walk recovers the untouched tail of the input,
provided the checkpoints sit at increasing positions at or past
`lastIndex`. -/
theorem buildHighlight_flatten (commits : List Commit) :
    ∀ (pivotal : List Commit) (lastIndex : Nat),
      (∀ q ∈ pivotal, q ∈ commits) →
      List.Pairwise
        (fun a b => List.indexOf a commits < List.indexOf b commits) pivotal →
      (∀ q ∈ pivotal, lastIndex ≤ List.indexOf q commits) →
      ((buildHighlightScenes commits pivotal lastIndex).map
        SceneGroup.commits).flatten = commits.drop lastIndex := by
  intro pivotal
  induction pivotal with
  | nil =>
    intro lastIndex _ _ _
    simp only [buildHighlightScenes]
    by_cases h : lastIndex < commits.length
    · rw [if_pos h]
      have hpos : (commits.drop lastIndex).length > 0 := by
        rw [List.length_drop]; omega
      rw [if_pos hpos]
      simp
    · rw [if_neg h, List.drop_eq_nil_of_le (by omega)]
      rfl
  | cons p rest ih =>
    intro lastIndex hmem hmono hlast
    have hpmem : p ∈ commits := hmem p (List.mem_cons_self p rest)
    have hi : List.indexOf p commits < commits.length :=
      List.indexOf_lt_length.mpr hpmem
    have hgetp : commits[List.indexOf p commits] = p :=
      List.getElem_indexOf hi
    have hlastp : lastIndex ≤ List.indexOf p commits :=
      hlast p (List.mem_cons_self p rest)
    have hrec := ih (List.indexOf p commits + 1)
      (fun q hq => hmem q (List.mem_cons_of_mem p hq))
      hmono.of_cons
      (fun q hq => (List.pairwise_cons.mp hmono).1 q hq)
    have hchunk := drop_split_at commits lastIndex (List.indexOf p commits)
      hlastp hi
    rw [hgetp] at hchunk
    simp only [buildHighlightScenes]
    by_cases hgt : List.indexOf p commits > lastIndex
    · rw [if_pos hgt]
      have hsklen :
          ((commits.drop lastIndex).take
            (List.indexOf p commits - lastIndex)).length > 0 := by
        rw [List.length_take, List.length_drop]
        omega
      rw [if_pos hsklen]
      simp only [List.map_append, List.flatten_append, List.map_cons,
        List.map_nil, List.flatten_cons, List.flatten_nil, List.append_nil,
        List.singleton_append, hrec, List.append_assoc, List.cons_append,
        List.nil_append]
      exact hchunk
    · have heq : List.indexOf p commits - lastIndex = 0 := by omega
      rw [if_neg hgt]
      rw [heq, List.take_zero] at hchunk
      simp only [List.nil_append, List.map_append, List.map_cons,
        List.map_nil, List.flatten_append, List.flatten_cons,
        List.flatten_nil, List.append_nil, List.singleton_append, hrec]
      exact hchunk

theorem processHighlights_coverage (commits : List Commit)
    (hsort : List.Pairwise (fun a b => a.date < b.date) commits) :
    ((processHighlights commits).scenes.map SceneGroup.commits).flatten =
      commits := by
  simp only [processHighlights]
  have h := buildHighlight_flatten commits
    (findAllPivotalCommits commits HIGHLIGHTS_COUNT) 0
    (fun q hq => findAll_mem hq)
    (pivotal_index_mono hsort HIGHLIGHTS_COUNT)
    (fun q _ => Nat.zero_le _)
  rw [List.drop_zero] at h
  exact h

theorem processFull_flatten (commits : List Commit) :
    ((processFull commits).scenes.map SceneGroup.commits).flatten = commits := by
  simp only [processFull, List.map_map, Function.comp]
  exact flatten_map_singleton commits

/-- **C1 counterexample.**  The claim quantifies over every finite commit
list; with two commits sharing a timestamp (an ascending-but-tied input),
highlights mode duplicates both commits in the flattened output, so the
flattened scene commits are not multiset-equal to the input. -/
theorem claim_C1_counterexample :
    ¬ ((((processCommits [cTie0, cTie1] .highlights).scenes.map
        SceneGroup.commits).flatten).Perm [cTie0, cTie1]) := by decide

/-- **C1 (amended).**  For commit lists with strictly increasing timestamps
(the chronologically ordered, duplicate-free inputs the pipeline is fed),
every density mode emits SceneGroups whose concatenated commits form a
permutation — hence an equal multiset — of the input: nothing is dropped or
duplicated. -/
theorem claim_C1_amended :
    ∀ (commits : List Commit) (mode : DensityMode),
      List.Pairwise (fun a b => a.date < b.date) commits →
      (((processCommits commits mode).scenes.map
        SceneGroup.commits).flatten).Perm commits := by
  intro commits mode hsort
  cases mode with
  | full =>
    simp only [processCommits]
    rw [processFull_flatten]
  | montage =>
    exact processMontage_coverage commits (nodup_of_strict_dates hsort)
  | highlights =>
    simp only [processCommits]
    rw [processHighlights_coverage commits hsort]

/-- Witness for the amended C1 at a concrete strictly-dated input. -/
theorem claim_C1_witness :
    List.Pairwise (fun a b : Commit => a.date < b.date) [cRun1, cRun2] ∧
    (((processCommits [cRun1, cRun2] .highlights).scenes.map
      SceneGroup.commits).flatten).Perm [cRun1, cRun2] :=
  ⟨by decide, claim_C1_amended [cRun1, cRun2] .highlights (by decide)⟩

/-- **C6 counterexample.**  `findAllPivotalCommits` keeps the top 25 by
score without enforcing the pivotal threshold: a lone zero-score commit is
selected and emitted as a `highlight` with `isPivotal = true` even though
its score 0 < 5. -/
theorem claim_C6_counterexample :
    cDull ∈ findAllPivotalCommits [cDull] 25 ∧
    isPivotal cDull = false ∧
    (processCommits [cDull] .highlights).scenes =
      [⟨.highlight, none, [cDull], some true⟩] := by decide

theorem buildHighlight_mem_highlight (commits : List Commit) {c : Commit} :
    ∀ (pivotal : List Commit) (lastIndex : Nat), c ∈ pivotal →
      (⟨.highlight, none, [c], some true⟩ : SceneGroup) ∈
        buildHighlightScenes commits pivotal lastIndex := by
  intro pivotal
  induction pivotal with
  | nil => intro lastIndex hc; cases hc
  | cons p rest ih =>
    intro lastIndex hc
    simp only [buildHighlightScenes]
    rcases List.mem_cons.mp hc with rfl | hc'
    · exact List.mem_append.mpr (Or.inl
        (List.mem_append.mpr (Or.inr (List.mem_singleton.mpr rfl))))
    · exact List.mem_append.mpr (Or.inr (ih _ hc'))

/-- `take` of `drop` is an infix. -/
theorem take_drop_infix (l : List Commit) (n m : Nat) :
    (l.drop n).take m <:+: l :=
  ⟨l.take n, (l.drop n).drop m, by
    rw [List.append_assoc, List.take_append_drop, List.take_append_drop]⟩

theorem buildHighlight_scene_shape (commits : List Commit)
    (pivotal : List Commit) (lastIndex : Nat) :
    ∀ g ∈ buildHighlightScenes commits pivotal lastIndex,
      (g.type = .highlight →
        g.isPivotal = some true ∧ ∃ c ∈ pivotal, g.commits = [c]) ∧
      (g.type = .montage → g.commits ≠ [] ∧ g.commits <:+: commits) := by
  induction pivotal generalizing lastIndex with
  | nil =>
    intro g hg
    simp only [buildHighlightScenes] at hg
    split at hg
    · split at hg
      case isTrue h2 =>
        rcases List.mem_singleton.mp hg with rfl
        constructor
        · intro ht
          exact SceneType.noConfusion ht
        · intro _
          constructor
          · intro hnil
            have hnil' : commits.drop lastIndex = [] := hnil
            rw [hnil'] at h2
            simp at h2
          · exact (List.drop_suffix lastIndex commits).isInfix
      case isFalse => cases hg
    · cases hg
  | cons p rest ih =>
    intro g hg
    simp only [buildHighlightScenes] at hg
    rcases List.mem_append.mp hg with hg1 | hg2
    · rcases List.mem_append.mp hg1 with hg3 | hg4
      · split at hg3
        · split at hg3
          case isTrue h2 =>
            rcases List.mem_singleton.mp hg3 with rfl
            constructor
            · intro ht
              exact SceneType.noConfusion ht
            · intro _
              constructor
              · intro hnil
                have hnil' : (commits.drop lastIndex).take
                    (List.indexOf p commits - lastIndex) = [] := hnil
                rw [hnil'] at h2
                simp at h2
              · exact take_drop_infix commits lastIndex _
          case isFalse => cases hg3
        · cases hg3
      · rcases List.mem_singleton.mp hg4 with rfl
        constructor
        · intro _
          exact ⟨rfl, p, List.mem_cons_self p rest, rfl⟩
        · intro ht
          exact SceneType.noConfusion ht
    · have hres := ih _ g hg2
      refine ⟨fun ht => ⟨(hres.1 ht).1, ?_⟩, hres.2⟩
      rcases (hres.1 ht).2 with ⟨c, hc, hcc⟩
      exact ⟨c, List.mem_cons_of_mem p hc, hcc⟩

/-- **C6 (amended).**  In highlights mode, the checkpoints selected by
`findAllPivotalCommits(commits, 25)` number at most 25 (top-25 by score,
not necessarily crossing the pivotal threshold); every checkpoint is
emitted as a `highlight` group with `isPivotal = true` wrapping exactly
that commit, and every `montage` group emitted is a non-empty contiguous
span of the input. -/
theorem claim_C6_amended :
    ∀ commits : List Commit,
      (findAllPivotalCommits commits 25).length ≤ 25 ∧
      (∀ c ∈ findAllPivotalCommits commits 25,
        (⟨.highlight, none, [c], some true⟩ : SceneGroup) ∈
          (processCommits commits .highlights).scenes) ∧
      (∀ g ∈ (processCommits commits .highlights).scenes,
        g.type = .highlight →
          g.isPivotal = some true ∧
          ∃ c ∈ findAllPivotalCommits commits 25, g.commits = [c]) ∧
      (∀ g ∈ (processCommits commits .highlights).scenes,
        g.type = .montage → g.commits ≠ [] ∧ g.commits <:+: commits) := by
  intro commits
  refine ⟨findAll_length_le commits 25, ?_, ?_, ?_⟩
  · intro c hc
    simp only [processCommits, processHighlights, HIGHLIGHTS_COUNT]
    exact buildHighlight_mem_highlight commits _ 0 hc
  · intro g hg ht
    simp only [processCommits, processHighlights, HIGHLIGHTS_COUNT] at hg
    exact (buildHighlight_scene_shape commits _ 0 g hg).1 ht
  · intro g hg ht
    simp only [processCommits, processHighlights, HIGHLIGHTS_COUNT] at hg
    exact (buildHighlight_scene_shape commits _ 0 g hg).2 ht

/-- Witness for the amended C6 at a concrete input. -/
theorem claim_C6_witness :
    (⟨.highlight, none, [cDull], some true⟩ : SceneGroup) ∈
      (processCommits [cDull] .highlights).scenes ∧
    (findAllPivotalCommits [cDull] 25).length ≤ 25 :=
  ⟨(claim_C6_amended [cDull]).2.1 cDull (by decide),
   (claim_C6_amended [cDull]).1⟩

end CodeTheater
